import Mathlib

/-!
Shallow embedding of the Right-Truncatable-Primes repository
(src/count_primes.c: a C variant using a chained hash table, and an
optimized C++ variant using a dense bitset), together with proofs of the
specification claims.

Machine integers (`unsigned long long`, `size_t`) are modelled as `Nat`
with explicit reduction modulo `2 ^ 64` where C overflow semantics matter.
-/

/-- `2 ^ 64`, the modulus of `unsigned long long` arithmetic. -/
def two64 : Nat := 2 ^ 64

/-- Trial-division worker over the odd divisors `3 + 2 * j` for index `j`
in `[i, i + len)`: returns `true` when none of them (with square at most
`n`) divides `n`. The interval is split in halves, with structural
recursion on `depth` (any `depth` with `len ≤ 2 ^ depth` suffices), so
that kernel reduction uses logarithmic stack depth. -/
def noFacT (n : Nat) : Nat → Nat → Nat → Bool
  | 0, i, len =>
    if n < (3 + 2 * i) * (3 + 2 * i) then true
    else if len = 0 then true
    else decide (n % (3 + 2 * i) ≠ 0)
  | depth + 1, i, len =>
    if n < (3 + 2 * i) * (3 + 2 * i) then true
    else if len = 0 then true
    else if len = 1 then decide (n % (3 + 2 * i) ≠ 0)
    else noFacT n depth i (len / 2) && noFacT n depth (i + len / 2) (len - len / 2)

/-- Modelled from the spec: executable primality test (trial division by 2
and by the odd numbers up to the square root), used to model the external
Prime Source (`primesieve`), which is not part of this repository's
sources. `isPrime_iff_prime` below proves it equivalent to `Nat.Prime`. -/
def isPrime (n : Nat) : Bool :=
  decide (2 ≤ n) && (decide (n = 2) || (decide (n % 2 ≠ 0) && noFacT n n 0 n))

/-- Modelled from the spec: the external Prime Source capability
`generate_primes(min, max)` (primesieve), returning the ordered sequence of
all primes in `[min, max]`, ascending, with no duplicates. -/
def generate_primes (lo hi : Nat) : List Nat :=
  (List.range (hi + 1)).filter (fun n => decide (lo ≤ n) && isPrime n)

/-- `power_of_10` from src/count_primes.c: computes `10 ^ exp` by a loop of
multiplications by 10. -/
def power_of_10 : Nat → Nat
  | 0 => 1
  | n + 1 => power_of_10 n * 10

/-- `count_digits` helper loop from src/count_primes.c: number of `/= 10`
steps needed to reach 0. -/
def count_digits_loop (v : Nat) : Nat :=
  if h : v = 0 then 0 else count_digits_loop (v / 10) + 1
termination_by v
decreasing_by exact Nat.div_lt_self (Nat.pos_of_ne_zero h) (by decide)

/-- `count_digits` from src/count_primes.c: digit count of `num`, with
`count_digits 0 = 1`. -/
def count_digits (num : Nat) : Nat :=
  if num = 0 then 1 else count_digits_loop num

/-- `hash_ull` from src/count_primes.c: the avalanche integer mix on
`unsigned long long`, reduced modulo the table size. Every C operation is
mirrored with explicit `% 2 ^ 64` where wrap-around can occur. -/
def hash_ull (key : Nat) (table_size : Nat) : Nat :=
  let k0 := key % two64
  let k1 := ((two64 - 1 - k0) + (k0 <<< 21)) % two64
  let k2 := k1 ^^^ (k1 >>> 24)
  let k3 := ((k2 + (k2 <<< 3)) + (k2 <<< 8)) % two64
  let k4 := k3 ^^^ (k3 >>> 14)
  let k5 := ((k4 + (k4 <<< 2)) + (k4 <<< 4)) % two64
  let k6 := k5 ^^^ (k5 >>> 28)
  let k7 := (k6 + (k6 <<< 31)) % two64
  k7 % table_size

/-- `hash_table_t` from src/count_primes.c: bucket count, entry count, and
the bucket array; each bucket chain is a list of stored values. -/
structure hash_table where
  size : Nat
  count : Nat
  buckets : List (List Nat)
deriving DecidableEq

/-- `hash_table_create` from src/count_primes.c (allocation assumed to
succeed): `table_size` empty buckets, zero entries. -/
def hash_table_create (table_size : Nat) : hash_table :=
  ⟨table_size, 0, List.replicate table_size []⟩

/-- `hash_table_add` from src/count_primes.c (allocation assumed to
succeed): walk the chain at the hashed index; if the value is present
return the table unchanged with status 1 (`true`), otherwise prepend a new
node and bump the count. -/
def hash_table_add (ht : hash_table) (value : Nat) : hash_table × Bool :=
  let index := hash_ull value ht.size
  let chain := ht.buckets.getD index []
  if value ∈ chain then (ht, true)
  else
    (⟨ht.size, ht.count + 1, ht.buckets.set index (value :: chain)⟩, true)

/-- `hash_table_contains` from src/count_primes.c: rehash and walk the
target bucket's chain comparing by value equality. -/
def hash_table_contains (ht : hash_table) (value : Nat) : Bool :=
  decide (value ∈ ht.buckets.getD (hash_ull value ht.size) [])

/-- The population loop of `count_right_trunc_primes` (C variant): add all
generated primes to a fresh table of the given size. -/
def build_table (table_size : Nat) (l : List Nat) : hash_table :=
  l.foldl (fun ht v => (hash_table_add ht v).1) (hash_table_create table_size)

/-- The inner `while (temp_prime > 0)` loop shared by both variants:
repeatedly query the membership oracle and strip the rightmost digit,
short-circuiting to `false` on the first failed query. -/
def trunc_check (mem : Nat → Bool) (v : Nat) : Bool :=
  if h : v = 0 then true
  else if mem v then trunc_check mem (v / 10) else false
termination_by v
decreasing_by exact Nat.div_lt_self (Nat.pos_of_ne_zero h) (by decide)

/-- The successive right-truncations of `v` (the value itself, then each
`/ 10` image, down to the leading digit) — the values the inner loop
queries. -/
def truncations (v : Nat) : List Nat :=
  if h : v = 0 then [] else v :: truncations (v / 10)
termination_by v
decreasing_by exact Nat.div_lt_self (Nat.pos_of_ne_zero h) (by decide)

/-- The digit-window test `current_digits_start ≤ p ≤ current_digits_end`
(negation of the `continue` condition in the C variant's scan). -/
def in_window (lo hi p : Nat) : Bool :=
  decide (lo ≤ p) && decide (p ≤ hi)

/-- A candidate passes when it lies in the digit window and every
truncation is a known prime. -/
def rt_candidate (mem : Nat → Bool) (lo hi p : Nat) : Bool :=
  in_window lo hi p && trunc_check mem p

/-- The candidate scan of the C variant's `count_right_trunc_primes`:
skip primes outside the window (`continue`), otherwise run the truncation
check and bump the counter on success. -/
def c_scan (mem : Nat → Bool) (lo hi : Nat) : List Nat → Nat → Nat
  | [], c => c
  | p :: rest, c =>
    if p < lo ∨ hi < p then c_scan mem lo hi rest c
    else c_scan mem lo hi rest (if trunc_check mem p then c + 1 else c)

/-- `count_right_trunc_primes` from src/count_primes.c (C variant):
validate the digit bound, generate all primes up to `10 ^ digits - 1`,
build the hash set (sized `2 ×` prime count, floor 17), and scan the
digit window, returning `-1` on an invalid bound. -/
def count_right_trunc_primes_c (digits : Nat) : Int :=
  if digits < 1 ∨ 19 < digits then -1
  else
    let MAX_END := power_of_10 digits - 1
    let all_primes := generate_primes 2 MAX_END
    let tsize := if all_primes.length = 0 then 17 else all_primes.length * 2
    let ht := build_table tsize all_primes
    let lo := power_of_10 (digits - 1)
    let hi := power_of_10 digits - 1
    Int.ofNat (c_scan (hash_table_contains ht) lo hi all_primes 0)

/-- The `total_count` loop of the C variant's `main`: sum the per-length
counts for every digit length `1 .. d`. -/
def c_main_total (d : Nat) : Int :=
  ((List.range d).map (fun i => count_right_trunc_primes_c (i + 1))).sum

/-- The bitset build loop of the optimized variant's `main`: start from
`len` false bits and set `bit[p] = true` for every generated prime `p`. -/
def build_bitset (len : Nat) (l : List Nat) : List Bool :=
  l.foldl (fun bs p => bs.set p true) (List.replicate len false)

/-- The bitset membership test of the optimized variant: the query fails
when `v ≥ size` or the bit is unset, so membership holds exactly when `v`
is in bounds and `bit[v]` is set. -/
def bitset_contains (bs : List Bool) (v : Nat) : Bool :=
  decide (v < bs.length) && bs.getD v false

/-- The candidate scan of the optimized `count_right_trunc_primes`:
`continue` below the window, `break` above it (the prime list is sorted),
count window primes in `n` and right-truncatable ones in `c`. -/
def opt_scan (mem : Nat → Bool) (lo hi : Nat) : List Nat → Nat → Nat → Nat × Nat
  | [], c, n => (c, n)
  | p :: rest, c, n =>
    if p < lo then opt_scan mem lo hi rest c n
    else if hi < p then (c, n)
    else opt_scan mem lo hi rest (if trunc_check mem p then c + 1 else c) (n + 1)

/-- `count_right_trunc_primes` from src/count_primes.c (optimized C++
variant): validate the digit bound, then scan the shared sorted prime list
against the shared bitset; returns the right-truncatable count and the
`primes_per_digit[digits]` tally. -/
def count_right_trunc_primes_opt (all_primes : List Nat) (bs : List Bool) (digits : Nat) :
    Int × Nat :=
  if digits < 1 ∨ 19 < digits then (-1, 0)
  else
    let lo := power_of_10 (digits - 1)
    let hi := power_of_10 digits - 1
    let r := opt_scan (bitset_contains bs) lo hi all_primes 0 0
    (Int.ofNat r.1, r.2)

/-- The descending loop `for (int i = digits; i > 0; i--)` of the optimized
`main`: per-length entries `(i, count, primes_per_digit i)` in the printed
order, plus the accumulated total; `none` models the early `return 1` taken
when a per-length count comes back negative. -/
def opt_loop (primes : List Nat) (bs : List Bool) : Nat → Option (List (Nat × Int × Nat) × Int)
  | 0 => some ([], 0)
  | k + 1 =>
    let r := count_right_trunc_primes_opt primes bs (k + 1)
    if r.1 < 0 then none
    else
      match opt_loop primes bs k with
      | none => none
      | some (lines, total) => some ((k + 1, r.1, r.2) :: lines, r.1 + total)

/-- The per-length output line of the optimized `main`
(`printf("Number of %d-digit right-truncatable primes: %d (n = %llu)\n", ...)`). -/
def render_line (k : Nat) (count : Int) (n : Nat) : String :=
  "Number of " ++ toString k ++ "-digit right-truncatable primes: " ++
    toString count ++ " (n = " ++ toString n ++ ")"

/-- The total output line of the optimized `main`. -/
def render_total (d : Nat) (total : Int) (n : Nat) : String :=
  "Total number of right-truncatable primes up to " ++ toString d ++
    " digits: " ++ toString total ++ " (n = " ++ toString n ++ ")"

/-- Observable outcome of a run: process exit code, lines printed to
standard output, lines printed to the error stream. Elapsed-time lines are
real-time measurements and are not modelled. -/
structure RunResult where
  exitCode : Nat
  out : List String
  err : List String
deriving DecidableEq

/-- `main` of the optimized variant. `args` models the positional
command-line arguments after `atoi` conversion (the program takes exactly
one). Argument-count and range validation precede any prime generation,
index build, or counting, mirroring the source. -/
def run_main (args : List Int) : RunResult :=
  if args.length ≠ 1 then
    ⟨1, [], ["Usage: count_primes <number_of_digits>"]⟩
  else
    let digits : Int := args.getD 0 0
    if digits < 1 ∨ 19 < digits then
      ⟨1, [], ["Error: digits must be between 1 and 19 for unsigned long long."]⟩
    else
      let d := digits.toNat
      let MAX_END := power_of_10 d - 1
      let primes := generate_primes 2 MAX_END
      let bs := build_bitset (MAX_END + 1) primes
      match opt_loop primes bs d with
      | none => ⟨1, [], ["Error counting right-truncatable primes."]⟩
      | some (lines, total) =>
        ⟨0, lines.map (fun e => render_line e.1 e.2.1 e.2.2) ++
          [render_total d total primes.length], []⟩

/-- The full optimized pipeline for digit bound `d`: generate once, build
the bitset once, run the descending per-length loop. -/
def opt_main_result (d : Nat) : Option (List (Nat × Int × Nat) × Int) :=
  let MAX_END := power_of_10 d - 1
  let primes := generate_primes 2 MAX_END
  let bs := build_bitset (MAX_END + 1) primes
  opt_loop primes bs d

/-- Per-length `(length, count)` pairs reported by the optimized pipeline. -/
def opt_counts (d : Nat) : Option (List (Nat × Int)) :=
  (opt_main_result d).map (fun r => r.1.map (fun e => (e.1, e.2.1)))

/-- Total count reported by the optimized pipeline. -/
def opt_total (d : Nat) : Option Int :=
  (opt_main_result d).map (fun r => r.2)

/-- Reference characterization: the right-truncatable primes of exactly
`k` digits, as the filter of the full `k`-digit range by the window bound
and the truncation check against true primality. -/
def rt_window (k : Nat) : List Nat :=
  (List.range (power_of_10 k)).filter
    (fun v => decide (power_of_10 (k - 1) ≤ v) && trunc_check isPrime v)

/-- One extension step: append each decimal digit to each value and keep
the prime results. -/
def nextRT (l : List Nat) : List Nat :=
  l.flatMap (fun p => ((List.range 10).map (fun d => 10 * p + d)).filter isPrime)

/-- Kernel-computable enumeration of the right-truncatable primes of
exactly `k` digits: single-digit primes at `k = 1`, then repeated
extension by one digit. -/
def rtList : Nat → List Nat
  | 0 => []
  | 1 => (List.range 10).filter isPrime
  | k + 2 => nextRT (rtList (k + 1))

/-- The count of right-truncatable primes of exactly `k` digits. -/
def rt_count (k : Nat) : Nat := (rtList k).length

/-- The total count of right-truncatable primes of at most `d` digits,
accumulated the way the optimized `main` does (descending). -/
def total_rt : Nat → Nat
  | 0 => 0
  | k + 1 => rt_count (k + 1) + total_rt k

/-- The number of generated primes with exactly `k` digits, as tallied by
`primes_per_digit` in the optimized variant at digit bound `d`. -/
def primes_with_digits (k d : Nat) : Nat :=
  ((generate_primes 2 (power_of_10 d - 1)).filter
    (fun p => in_window (power_of_10 (k - 1)) (power_of_10 k - 1) p)).length

/-- The list `[d, d-1, ..., 1]` of digit lengths in the optimized `main`'s
print order. -/
def descRange : Nat → List Nat
  | 0 => []
  | k + 1 => (k + 1) :: descRange k

/-- Structural well-formedness of a hash table as built by the program:
positive bucket count matching the bucket array length, every stored value
chained at its own hash index, and duplicate-free chains. -/
def table_wf (ht : hash_table) : Prop :=
  0 < ht.size ∧ ht.buckets.length = ht.size ∧
    (∀ i, ∀ w ∈ ht.buckets.getD i [], hash_ull w ht.size = i) ∧
    (∀ i, (ht.buckets.getD i []).Nodup)

theorem pow10_eq (n : Nat) : power_of_10 n = 10 ^ n := by
  induction n with
  | zero => rfl
  | succ n ih => simp [power_of_10, ih, pow_succ]

theorem pow10_pos (n : Nat) : 0 < power_of_10 n := by
  rw [pow10_eq]; exact Nat.pos_pow_of_pos n (by decide)

theorem pow10_succ_sub_one (n : Nat) : power_of_10 n - 1 + 1 = power_of_10 n :=
  Nat.succ_pred_eq_of_pos (pow10_pos n)

theorem trunc_check_zero (mem : Nat → Bool) : trunc_check mem 0 = true := by
  simp [trunc_check]

theorem trunc_check_pos (mem : Nat → Bool) (v : Nat) (h : v ≠ 0) :
    trunc_check mem v = (mem v && trunc_check mem (v / 10)) := by
  rw [trunc_check]
  simp only [h, dite_false]
  cases mem v <;> simp

theorem truncations_zero : truncations 0 = [] := by
  simp [truncations]

theorem truncations_pos (v : Nat) (h : v ≠ 0) :
    truncations v = v :: truncations (v / 10) := by
  rw [truncations]
  simp [h]

theorem trunc_check_eq_all (mem : Nat → Bool) (v : Nat) :
    trunc_check mem v = (truncations v).all mem := by
  induction v using Nat.strong_induction_on with
  | _ v ih =>
    by_cases hv : v = 0
    · subst hv; simp [trunc_check_zero, truncations_zero]
    · rw [trunc_check_pos mem v hv, truncations_pos v hv, List.all_cons,
        ih (v / 10) (Nat.div_lt_self (Nat.pos_of_ne_zero hv) (by decide))]

theorem trunc_check_congr (mem mem' : Nat → Bool) (v : Nat)
    (h : ∀ w, 0 < w → w ≤ v → mem w = mem' w) :
    trunc_check mem v = trunc_check mem' v := by
  induction v using Nat.strong_induction_on with
  | _ v ih =>
    by_cases hv : v = 0
    · subst hv; simp [trunc_check_zero]
    · rw [trunc_check_pos mem v hv, trunc_check_pos mem' v hv,
        h v (Nat.pos_of_ne_zero hv) le_rfl,
        ih (v / 10) (Nat.div_lt_self (Nat.pos_of_ne_zero hv) (by decide))
          (fun w hw hle => h w hw (hle.trans (Nat.div_le_self v 10)))]

theorem noFacT_iff (n : Nat) :
    ∀ depth i len, len ≤ 2 ^ depth →
      (noFacT n depth i len = true ↔
        ∀ j, i ≤ j → j < i + len → (3 + 2 * j) * (3 + 2 * j) ≤ n →
          ¬ (3 + 2 * j) ∣ n) := by
  intro depth
  induction depth with
  | zero =>
    intro i len hlen
    rw [noFacT]
    by_cases h1 : n < (3 + 2 * i) * (3 + 2 * i)
    · rw [if_pos h1]
      constructor
      · intro _ j hj1 _ hsq
        have hmono : (3 + 2 * i) * (3 + 2 * i) ≤ (3 + 2 * j) * (3 + 2 * j) :=
          Nat.mul_le_mul (by omega) (by omega)
        omega
      · intro _; rfl
    · rw [if_neg h1]
      by_cases h2 : len = 0
      · rw [if_pos h2]
        constructor
        · intro _ j hj1 hj2
          omega
        · intro _; rfl
      · rw [if_neg h2]
        have hlen1 : len = 1 := by
          have := Nat.pow_zero 2
          omega
        rw [decide_eq_true_iff]
        constructor
        · intro hne j hj1 hj2 _ hdvd
          have hji : j = i := by omega
          subst hji
          exact hne (Nat.dvd_iff_mod_eq_zero.mp hdvd)
        · intro hall h0
          exact hall i le_rfl (by omega) (Nat.le_of_not_lt h1)
            (Nat.dvd_iff_mod_eq_zero.mpr h0)
  | succ depth ih =>
    intro i len hlen
    rw [noFacT]
    by_cases h1 : n < (3 + 2 * i) * (3 + 2 * i)
    · rw [if_pos h1]
      constructor
      · intro _ j hj1 _ hsq
        have hmono : (3 + 2 * i) * (3 + 2 * i) ≤ (3 + 2 * j) * (3 + 2 * j) :=
          Nat.mul_le_mul (by omega) (by omega)
        omega
      · intro _; rfl
    · rw [if_neg h1]
      by_cases h2 : len = 0
      · rw [if_pos h2]
        constructor
        · intro _ j hj1 hj2
          omega
        · intro _; rfl
      · rw [if_neg h2]
        by_cases h3 : len = 1
        · rw [if_pos h3]
          rw [decide_eq_true_iff]
          constructor
          · intro hne j hj1 hj2 _ hdvd
            have hji : j = i := by omega
            subst hji
            exact hne (Nat.dvd_iff_mod_eq_zero.mp hdvd)
          · intro hall h0
            exact hall i le_rfl (by omega) (Nat.le_of_not_lt h1)
              (Nat.dvd_iff_mod_eq_zero.mpr h0)
        · rw [if_neg h3]
          have hp2 : 2 ^ (depth + 1) = 2 * 2 ^ depth := by ring
          rw [Bool.and_eq_true,
            ih i (len / 2) (by omega),
            ih (i + len / 2) (len - len / 2) (by omega)]
          constructor
          · intro ⟨hL, hR⟩ j hj1 hj2 hsq
            by_cases hj : j < i + len / 2
            · exact hL j hj1 hj hsq
            · exact hR j (by omega) (by omega) hsq
          · intro hall
            exact ⟨fun j hj1 hj2 => hall j hj1 (by omega),
              fun j hj1 hj2 => hall j (by omega) (by omega)⟩

theorem isPrime_iff_prime (n : Nat) : isPrime n = true ↔ n.Prime := by
  have hbound : n ≤ 2 ^ n := Nat.le_of_lt (Nat.lt_two_pow n)
  rw [isPrime, Bool.and_eq_true, Bool.or_eq_true, Bool.and_eq_true,
    decide_eq_true_iff, decide_eq_true_iff, decide_eq_true_iff]
  constructor
  · rintro ⟨h2, heq | ⟨hodd, hfac⟩⟩
    · subst heq
      exact Nat.prime_two
    · rw [Nat.prime_def_le_sqrt]
      refine ⟨h2, fun m hm hms => ?_⟩
      have hmm : m * m ≤ n := le_trans (Nat.mul_le_mul hms hms) (Nat.sqrt_le n)
      have hmn : m ≤ n := le_trans (Nat.le_mul_of_pos_left m (by omega)) hmm
      intro hdvd
      rcases Nat.even_or_odd m with hev | hod
      · obtain ⟨t, rfl⟩ := hev
        have h2d : 2 ∣ n := dvd_trans ⟨t, by ring⟩ hdvd
        exact hodd (Nat.dvd_iff_mod_eq_zero.mp h2d)
      · obtain ⟨t, rfl⟩ := hod
        have ht1 : 1 ≤ t := by omega
        have hje : 3 + 2 * (t - 1) = 2 * t + 1 := by omega
        have := (noFacT_iff n n 0 n hbound).mp hfac (t - 1) (by omega)
          (by omega) (by rw [hje]; exact hmm)
        rw [hje] at this
        exact this hdvd
  · intro h
    refine ⟨h.two_le, ?_⟩
    by_cases hn2 : n = 2
    · exact Or.inl hn2
    · refine Or.inr ⟨?_, ?_⟩
      · intro h0
        have h2d : 2 ∣ n := Nat.dvd_iff_mod_eq_zero.mpr h0
        rcases h.eq_one_or_self_of_dvd 2 h2d with hcon | hcon
        · omega
        · exact hn2 hcon.symm
      · rw [noFacT_iff n n 0 n hbound]
        intro j _ _ hsq hdvd
        rcases h.eq_one_or_self_of_dvd (3 + 2 * j) hdvd with hcon | hcon
        · omega
        · rw [hcon] at hsq
          have h2n : 2 ≤ n := h.two_le
          have : 2 * n ≤ n * n := Nat.mul_le_mul_right n h2n
          omega

theorem mem_generate_primes (lo hi v : Nat) :
    v ∈ generate_primes lo hi ↔ v < hi + 1 ∧ lo ≤ v ∧ isPrime v = true := by
  rw [generate_primes, List.mem_filter, List.mem_range, Bool.and_eq_true,
    decide_eq_true_iff]

theorem pairwise_generate_primes (lo hi : Nat) :
    (generate_primes lo hi).Pairwise (· < ·) :=
  List.Pairwise.sublist (List.filter_sublist _) (List.pairwise_lt_range _)

theorem getD_set_self {α : Type} (l : List α) (i : Nat) (x d : α)
    (h : i < l.length) : (l.set i x).getD i d = x := by
  rw [List.getD_eq_getElem?_getD, List.getElem?_set_self h]
  rfl

theorem getD_set_ne {α : Type} (l : List α) (i j : Nat) (x d : α)
    (h : i ≠ j) : (l.set i x).getD j d = l.getD j d := by
  rw [List.getD_eq_getElem?_getD, List.getElem?_set_ne h, ← List.getD_eq_getElem?_getD]

theorem getD_replicate {α : Type} (a : α) (n i : Nat) :
    (List.replicate n a).getD i a = a := by
  rw [List.getD_eq_getElem?_getD]
  by_cases h : i < n
  · rw [List.getElem?_replicate_of_lt h]
    rfl
  · rw [List.getElem?_eq_none (by simpa using Nat.le_of_not_lt h)]
    rfl

theorem hash_ull_lt (v s : Nat) (h : 0 < s) : hash_ull v s < s := by
  simp only [hash_ull]
  exact Nat.mod_lt _ h

theorem buckets_create (n : Nat) : (hash_table_create n).buckets = List.replicate n [] :=
  rfl

theorem table_wf_create (n : Nat) (h : 0 < n) : table_wf (hash_table_create n) := by
  refine ⟨h, List.length_replicate n [], fun i w hw => ?_, fun i => ?_⟩
  · rw [buckets_create, getD_replicate] at hw
    exact absurd hw (List.not_mem_nil w)
  · rw [buckets_create, getD_replicate]
    exact List.nodup_nil

theorem add_eq_of_mem (ht : hash_table) (v : Nat)
    (hmem : v ∈ ht.buckets.getD (hash_ull v ht.size) []) :
    hash_table_add ht v = (ht, true) := by
  simp only [hash_table_add]
  rw [if_pos hmem]

theorem add_eq_of_not_mem (ht : hash_table) (v : Nat)
    (hmem : ¬ v ∈ ht.buckets.getD (hash_ull v ht.size) []) :
    hash_table_add ht v =
      (⟨ht.size, ht.count + 1,
        ht.buckets.set (hash_ull v ht.size)
          (v :: ht.buckets.getD (hash_ull v ht.size) [])⟩, true) := by
  simp only [hash_table_add]
  rw [if_neg hmem]

theorem table_wf_add (ht : hash_table) (v : Nat) (h : table_wf ht) :
    table_wf (hash_table_add ht v).1 := by
  obtain ⟨hpos, hlen, hhash, hnodup⟩ := h
  by_cases hmem : v ∈ ht.buckets.getD (hash_ull v ht.size) []
  · rw [add_eq_of_mem ht v hmem]
    exact ⟨hpos, hlen, hhash, hnodup⟩
  · rw [add_eq_of_not_mem ht v hmem]
    have hidx : hash_ull v ht.size < ht.buckets.length := by
      rw [hlen]; exact hash_ull_lt v ht.size hpos
    have h1 : (ht.buckets.set (hash_ull v ht.size)
        (v :: ht.buckets.getD (hash_ull v ht.size) [])).length = ht.size := by
      rw [List.length_set]; exact hlen
    have h2 : ∀ i, ∀ w ∈ (ht.buckets.set (hash_ull v ht.size)
        (v :: ht.buckets.getD (hash_ull v ht.size) [])).getD i [],
        hash_ull w ht.size = i := by
      intro i w hw
      by_cases hi : hash_ull v ht.size = i
      · subst hi
        rw [getD_set_self _ _ _ _ hidx] at hw
        rcases List.mem_cons.mp hw with rfl | hw'
        · rfl
        · exact hhash _ w hw'
      · rw [getD_set_ne _ _ _ _ _ hi] at hw
        exact hhash i w hw
    have h3 : ∀ i, ((ht.buckets.set (hash_ull v ht.size)
        (v :: ht.buckets.getD (hash_ull v ht.size) [])).getD i []).Nodup := by
      intro i
      by_cases hi : hash_ull v ht.size = i
      · subst hi
        rw [getD_set_self _ _ _ _ hidx]
        exact List.Nodup.cons hmem (hnodup _)
      · rw [getD_set_ne _ _ _ _ _ hi]
        exact hnodup i
    exact ⟨hpos, h1, h2, h3⟩

theorem contains_create (n w : Nat) :
    hash_table_contains (hash_table_create n) w = false := by
  rw [hash_table_contains, buckets_create, getD_replicate]
  simp

theorem contains_add (ht : hash_table) (v w : Nat) (h : table_wf ht) :
    hash_table_contains (hash_table_add ht v).1 w =
      (decide (w = v) || hash_table_contains ht w) := by
  obtain ⟨hpos, hlen, _, _⟩ := h
  by_cases hmem : v ∈ ht.buckets.getD (hash_ull v ht.size) []
  · rw [add_eq_of_mem ht v hmem]
    by_cases hwv : w = v
    · subst hwv
      have hc : hash_table_contains ht w = true := by
        rw [hash_table_contains]
        exact decide_eq_true hmem
      rw [hc]
      simp
    · simp [hwv]
  · rw [add_eq_of_not_mem ht v hmem]
    have hidx : hash_ull v ht.size < ht.buckets.length := by
      rw [hlen]; exact hash_ull_lt v ht.size hpos
    by_cases hi : hash_ull w ht.size = hash_ull v ht.size
    · have hl : hash_table_contains
          (⟨ht.size, ht.count + 1, ht.buckets.set (hash_ull v ht.size)
            (v :: ht.buckets.getD (hash_ull v ht.size) [])⟩ : hash_table) w =
          decide (w ∈ v :: ht.buckets.getD (hash_ull v ht.size) []) := by
        show decide (w ∈ (ht.buckets.set (hash_ull v ht.size)
          (v :: ht.buckets.getD (hash_ull v ht.size) [])).getD (hash_ull w ht.size) []) = _
        rw [hi, getD_set_self _ _ _ _ hidx]
      rw [hl, hash_table_contains, hi]
      by_cases hwv : w = v <;> simp [hwv, List.mem_cons]
    · have hl : hash_table_contains
          (⟨ht.size, ht.count + 1, ht.buckets.set (hash_ull v ht.size)
            (v :: ht.buckets.getD (hash_ull v ht.size) [])⟩ : hash_table) w =
          hash_table_contains ht w := by
        show decide (w ∈ (ht.buckets.set (hash_ull v ht.size)
          (v :: ht.buckets.getD (hash_ull v ht.size) [])).getD (hash_ull w ht.size) []) = _
        rw [getD_set_ne _ _ _ _ _ (fun e => hi e.symm), hash_table_contains]
      rw [hl]
      have hwv : w ≠ v := fun e => hi (e ▸ rfl)
      simp [hwv]

theorem contains_foldl (w : Nat) :
    ∀ (l : List Nat) (ht : hash_table), table_wf ht →
      hash_table_contains (l.foldl (fun ht v => (hash_table_add ht v).1) ht) w =
        (decide (w ∈ l) || hash_table_contains ht w) := by
  intro l
  induction l with
  | nil => intro ht _; simp
  | cons p rest ih =>
    intro ht hwf
    rw [List.foldl_cons, ih _ (table_wf_add ht p hwf), contains_add ht p w hwf]
    by_cases hwp : w = p <;> simp [hwp, List.mem_cons]

theorem table_wf_build (n : Nat) (l : List Nat) (h : 0 < n) :
    table_wf (build_table n l) := by
  rw [build_table]
  have : ∀ (l' : List Nat) (ht : hash_table), table_wf ht →
      table_wf (l'.foldl (fun ht v => (hash_table_add ht v).1) ht) := by
    intro l'
    induction l' with
    | nil => intro ht hwf; exact hwf
    | cons p rest ih => intro ht hwf; exact ih _ (table_wf_add ht p hwf)
  exact this l _ (table_wf_create n h)

theorem contains_build (n : Nat) (l : List Nat) (w : Nat) (h : 0 < n) :
    hash_table_contains (build_table n l) w = decide (w ∈ l) := by
  rw [build_table, contains_foldl w l _ (table_wf_create n h), contains_create,
    Bool.or_false]

theorem flatten_nodup_of_wf (ht : hash_table) (h : table_wf ht) :
    ht.buckets.flatten.Nodup := by
  obtain ⟨_, _, hhash, hnodup⟩ := h
  rw [List.nodup_flatten]
  constructor
  · intro s hs
    rcases List.mem_iff_getElem.mp hs with ⟨i, hi, rfl⟩
    have := hnodup i
    rwa [List.getD_eq_getElem _ _ hi] at this
  · rw [List.pairwise_iff_getElem]
    intro i j hi hj hij
    intro w hwi hwj
    have h1 : hash_ull w ht.size = i := by
      have := hhash i w
      rw [List.getD_eq_getElem _ _ hi] at this
      exact this hwi
    have h2 : hash_ull w ht.size = j := by
      have := hhash j w
      rw [List.getD_eq_getElem _ _ hj] at this
      exact this hwj
    omega

theorem bitset_fold_getD (v : Nat) :
    ∀ (l : List Nat) (bs : List Bool), (∀ p ∈ l, p < bs.length) →
      ((l.foldl (fun bs p => bs.set p true) bs).getD v false) =
        (decide (v ∈ l) || bs.getD v false) := by
  intro l
  induction l with
  | nil => intro bs _; simp
  | cons p rest ih =>
    intro bs hlt
    rw [List.foldl_cons]
    have hp : p < bs.length := hlt p (List.mem_cons_self p rest)
    have hrest : ∀ q ∈ rest, q < (bs.set p true).length := by
      intro q hq
      rw [List.length_set]
      exact hlt q (List.mem_cons_of_mem p hq)
    rw [ih (bs.set p true) hrest]
    by_cases hvp : v = p
    · subst hvp
      rw [getD_set_self _ _ _ _ hp]
      simp [List.mem_cons]
    · rw [getD_set_ne _ _ _ _ _ (fun e => hvp e.symm)]
      simp [List.mem_cons, hvp]

theorem length_bitset_fold :
    ∀ (l : List Nat) (bs : List Bool),
      (l.foldl (fun bs p => bs.set p true) bs).length = bs.length := by
  intro l
  induction l with
  | nil => intro bs; rfl
  | cons p rest ih =>
    intro bs
    rw [List.foldl_cons, ih, List.length_set]

theorem length_build_bitset (len : Nat) (l : List Nat) :
    (build_bitset len l).length = len := by
  rw [build_bitset, length_bitset_fold, List.length_replicate]

theorem bitset_contains_build (len : Nat) (l : List Nat) (v : Nat)
    (h : ∀ p ∈ l, p < len) :
    bitset_contains (build_bitset len l) v = decide (v ∈ l) := by
  rw [bitset_contains, length_build_bitset, build_bitset]
  have hlen : ∀ p ∈ l, p < (List.replicate len false).length := by
    intro p hp
    rw [List.length_replicate]
    exact h p hp
  rw [bitset_fold_getD v l _ hlen, getD_replicate, Bool.or_false]
  by_cases hv : v ∈ l
  · simp [hv, h v hv]
  · simp [hv]

theorem c_scan_eq (mem : Nat → Bool) (lo hi : Nat) :
    ∀ (l : List Nat) (c : Nat),
      c_scan mem lo hi l c = c + (l.filter (rt_candidate mem lo hi)).length := by
  intro l
  induction l with
  | nil => intro c; simp [c_scan]
  | cons p rest ih =>
    intro c
    rw [c_scan]
    by_cases hskip : p < lo ∨ hi < p
    · rw [if_pos hskip, ih c]
      have hq : rt_candidate mem lo hi p = false := by
        rw [rt_candidate, in_window]
        rcases hskip with h1 | h1
        · simp [Nat.not_le_of_lt h1]
        · simp [Nat.not_le_of_lt h1]
      rw [List.filter_cons, hq]
      simp
    · rw [if_neg hskip]
      push_neg at hskip
      have hw : in_window lo hi p = true := by
        rw [in_window]
        simp [hskip.1, hskip.2]
      rw [List.filter_cons]
      by_cases ht : trunc_check mem p
      · have hq : rt_candidate mem lo hi p = true := by
          rw [rt_candidate, hw, ht]; rfl
        rw [if_pos ht, ih (c + 1), hq]
        simp
        omega
      · have hq : rt_candidate mem lo hi p = false := by
          rw [rt_candidate, hw, Bool.true_and]
          exact Bool.of_not_eq_true ht
        rw [if_neg ht, ih c, hq]
        simp

theorem opt_scan_eq (mem : Nat → Bool) (lo hi : Nat) :
    ∀ (l : List Nat), l.Pairwise (· < ·) → ∀ (c n : Nat),
      opt_scan mem lo hi l c n =
        (c + (l.filter (rt_candidate mem lo hi)).length,
         n + (l.filter (in_window lo hi)).length) := by
  intro l
  induction l with
  | nil => intro _ c n; simp [opt_scan]
  | cons p rest ih =>
    intro hpw c n
    have hpw' : rest.Pairwise (· < ·) := (List.pairwise_cons.mp hpw).2
    have hgt : ∀ q ∈ rest, p < q := (List.pairwise_cons.mp hpw).1
    rw [opt_scan]
    by_cases hlo : p < lo
    · rw [if_pos hlo, ih hpw' c n]
      have hq : in_window lo hi p = false := by
        rw [in_window]; simp [Nat.not_le_of_lt hlo]
      have hq2 : rt_candidate mem lo hi p = false := by
        rw [rt_candidate, hq]; rfl
      rw [List.filter_cons, List.filter_cons, hq, hq2]
      simp
    · rw [if_neg hlo]
      by_cases hhi : hi < p
      · rw [if_pos hhi]
        have hwin : ∀ q, q ∈ p :: rest → in_window lo hi q = false := by
          intro q hq
          have hq' : hi < q := by
            rcases List.mem_cons.mp hq with rfl | hq''
            · exact hhi
            · exact lt_trans hhi (hgt q hq'')
          rw [in_window]
          simp [Nat.not_le_of_lt hq']
        have hf1 : (p :: rest).filter (in_window lo hi) = [] := by
          rw [List.filter_eq_nil_iff]
          intro a ha
          rw [hwin a ha]
          simp
        have hf2 : (p :: rest).filter (rt_candidate mem lo hi) = [] := by
          rw [List.filter_eq_nil_iff]
          intro a ha
          rw [rt_candidate, hwin a ha]
          simp
        rw [hf1, hf2]
        simp
      · rw [if_neg hhi]
        push_neg at hlo hhi
        have hw : in_window lo hi p = true := by
          rw [in_window]; simp [hlo, hhi]
        rw [ih hpw', List.filter_cons, List.filter_cons, hw]
        by_cases ht : trunc_check mem p
        · have hq : rt_candidate mem lo hi p = true := by
            rw [rt_candidate, hw, ht]; rfl
          rw [if_pos ht, hq]
          simp
          omega
        · have hq : rt_candidate mem lo hi p = false := by
            rw [rt_candidate, hw, Bool.true_and]
            exact Bool.of_not_eq_true ht
          rw [if_neg ht, hq]
          simp
          omega

theorem range_mul10 (n : Nat) :
    List.range (n * 10) =
      (List.range n).flatMap (fun p => (List.range 10).map (fun d => 10 * p + d)) := by
  induction n with
  | zero => rfl
  | succ n ih =>
    rw [List.range_succ, List.flatMap_append, ← ih,
      show (n + 1) * 10 = n * 10 + 10 by ring, List.range_add]
    congr 1
    rw [List.flatMap_cons, List.flatMap_nil, List.append_nil]
    congr 1
    funext d
    omega

theorem flatMap_ite (l : List Nat) (q : Nat → Bool) (f : Nat → List Nat) :
    (l.flatMap (fun a => if q a then f a else [])) = (l.filter q).flatMap f := by
  induction l with
  | nil => rfl
  | cons p rest ih =>
    rw [List.flatMap_cons, List.filter_cons]
    by_cases hq : q p <;> simp [hq, ih]

theorem trunc_check_ext (k p d : Nat) (hk : 1 ≤ k) (hwp : 10 ^ (k - 1) ≤ p)
    (hd : d < 10) :
    trunc_check isPrime (10 * p + d) =
      (isPrime (10 * p + d) && trunc_check isPrime p) := by
  have hkk : 10 ^ k = 10 * 10 ^ (k - 1) := by
    conv_lhs => rw [show k = (k - 1) + 1 by omega]
    rw [pow_succ]
    ring
  have hge : 10 ^ k ≤ 10 * p := by
    rw [hkk]
    exact Nat.mul_le_mul_left 10 hwp
  have hne : 10 * p + d ≠ 0 := by
    have : 0 < 10 ^ k := Nat.pos_pow_of_pos k (by decide)
    omega
  rw [trunc_check_pos _ _ hne, Nat.mul_add_div (by decide : 0 < 10),
    Nat.div_eq_of_lt hd, Nat.add_zero]

theorem inner_filter (k : Nat) (hk : 1 ≤ k) (p : Nat) :
    (((List.range 10).map (fun d => 10 * p + d)).filter
      (fun v => decide (10 ^ k ≤ v) && trunc_check isPrime v)) =
    if decide (10 ^ (k - 1) ≤ p) && trunc_check isPrime p then
      ((List.range 10).map (fun d => 10 * p + d)).filter isPrime
    else [] := by
  have hkk : 10 ^ k = 10 * 10 ^ (k - 1) := by
    conv_lhs => rw [show k = (k - 1) + 1 by omega]
    rw [pow_succ]
    ring
  by_cases hwp : 10 ^ (k - 1) ≤ p
  · by_cases htp : trunc_check isPrime p = true
    · rw [if_pos (by rw [htp]; simp [hwp])]
      apply List.filter_congr
      intro v hv
      rcases List.mem_map.mp hv with ⟨d, hd, rfl⟩
      have hd10 : d < 10 := List.mem_range.mp hd
      have hge : 10 ^ k ≤ 10 * p + d := by
        have : 10 ^ k ≤ 10 * p := by
          rw [hkk]
          exact Nat.mul_le_mul_left 10 hwp
        omega
      rw [trunc_check_ext k p d hk hwp hd10, htp, Bool.and_true,
        decide_eq_true hge, Bool.true_and]
    · rw [if_neg (by rw [Bool.and_eq_true]; tauto)]
      rw [List.filter_eq_nil_iff]
      intro v hv
      rcases List.mem_map.mp hv with ⟨d, hd, rfl⟩
      have hd10 : d < 10 := List.mem_range.mp hd
      rw [trunc_check_ext k p d hk hwp hd10]
      intro hcon
      rw [Bool.and_eq_true, Bool.and_eq_true] at hcon
      exact htp hcon.2.2
  · rw [if_neg (by simp [hwp])]
    rw [List.filter_eq_nil_iff]
    intro v hv
    rcases List.mem_map.mp hv with ⟨d, hd, rfl⟩
    have hd10 : d < 10 := List.mem_range.mp hd
    have hlt : 10 * p + d < 10 ^ k := by
      have hp1 : p + 1 ≤ 10 ^ (k - 1) := Nat.succ_le_of_lt (Nat.lt_of_not_le hwp)
      have : 10 * (p + 1) ≤ 10 * 10 ^ (k - 1) := Nat.mul_le_mul_left 10 hp1
      omega
    simp only [Bool.and_eq_true, decide_eq_true_iff, not_and]
    intro hge
    omega

theorem rt_window_succ (k : Nat) (hk : 1 ≤ k) :
    rt_window (k + 1) = nextRT (rt_window k) := by
  rw [rt_window, rt_window, nextRT]
  simp only [pow10_eq, Nat.add_sub_cancel]
  rw [show (10 : Nat) ^ (k + 1) = 10 ^ k * 10 by ring, range_mul10,
    List.filter_flatMap]
  have hinner : ∀ p ∈ List.range (10 ^ k),
      (((List.range 10).map (fun d => 10 * p + d)).filter
        (fun v => decide (10 ^ k ≤ v) && trunc_check isPrime v)) =
      (fun p => if decide (10 ^ (k - 1) ≤ p) && trunc_check isPrime p then
        ((List.range 10).map (fun d => 10 * p + d)).filter isPrime
      else []) p := by
    intro p _
    exact inner_filter k hk p
  rw [List.flatMap_congr hinner, flatMap_ite]

theorem rt_window_one : rt_window 1 = (List.range 10).filter isPrime := by
  rw [rt_window]
  apply List.filter_congr
  intro v hv
  have hv10 : v < 10 := List.mem_range.mp hv
  by_cases hv0 : v = 0
  · subst hv0
    simp [power_of_10, isPrime]
  · have h1 : power_of_10 0 ≤ v := by
      rw [pow10_eq]
      omega
    rw [trunc_check_pos _ _ hv0, Nat.div_eq_of_lt hv10, trunc_check_zero,
      Bool.and_true, decide_eq_true h1, Bool.true_and]

theorem rt_window_eq_rtList (k : Nat) (hk : 1 ≤ k) : rt_window k = rtList k := by
  induction k with
  | zero => omega
  | succ k ih =>
    by_cases hk1 : k = 0
    · subst hk1
      rw [rt_window_one]
      rfl
    · rw [rt_window_succ k (by omega), ih (by omega)]
      rw [show k + 1 = (k - 1) + 2 by omega, rtList,
        show k - 1 + 1 = k by omega]

theorem isPrime_two_le (w : Nat) (h : isPrime w = true) : 2 ≤ w := by
  rw [isPrime, Bool.and_eq_true, decide_eq_true_iff] at h
  exact h.1

theorem decide_mem_generate (d w : Nat) (hw : w < power_of_10 d) :
    decide (w ∈ generate_primes 2 (power_of_10 d - 1)) = isPrime w := by
  have hiff : w ∈ generate_primes 2 (power_of_10 d - 1) ↔ isPrime w = true := by
    rw [mem_generate_primes, pow10_succ_sub_one]
    constructor
    · exact fun h => h.2.2
    · intro h
      exact ⟨hw, isPrime_two_le w h, h⟩
  by_cases hmem : w ∈ generate_primes 2 (power_of_10 d - 1)
  · rw [decide_eq_true hmem, (hiff.mp hmem).symm]
  · rw [decide_eq_false hmem]
    cases hip : isPrime w
    · rfl
    · exact absurd (hiff.mpr hip) hmem

theorem trunc_check_mem_eq (d p : Nat) (mem : Nat → Bool)
    (hmem : ∀ w, mem w = decide (w ∈ generate_primes 2 (power_of_10 d - 1)))
    (hp : p < power_of_10 d) :
    trunc_check mem p = trunc_check isPrime p := by
  apply trunc_check_congr
  intro w _ hwle
  rw [hmem w, decide_mem_generate d w (lt_of_le_of_lt hwle hp)]

theorem pow10_mono (k d : Nat) (h : k ≤ d) : power_of_10 k ≤ power_of_10 d := by
  rw [pow10_eq, pow10_eq]
  exact Nat.pow_le_pow_right (by decide) h

theorem window_trunc_filter (k d : Nat) (hk : 1 ≤ k) (hkd : k ≤ d) (mem : Nat → Bool)
    (hmem : ∀ w, mem w = decide (w ∈ generate_primes 2 (power_of_10 d - 1))) :
    (generate_primes 2 (power_of_10 d - 1)).filter
      (rt_candidate mem (power_of_10 (k - 1)) (power_of_10 k - 1)) = rtList k := by
  rw [← rt_window_eq_rtList k hk]
  have h2 : (generate_primes 2 (power_of_10 d - 1)).filter
      (rt_candidate mem (power_of_10 (k - 1)) (power_of_10 k - 1)) =
      (generate_primes 2 (power_of_10 d - 1)).filter
      (rt_candidate isPrime (power_of_10 (k - 1)) (power_of_10 k - 1)) := by
    apply List.filter_congr
    intro p hp
    have hplt : p < power_of_10 d := by
      have h3 := ((mem_generate_primes _ _ p).mp hp).1
      rw [pow10_succ_sub_one] at h3
      exact h3
    rw [rt_candidate, rt_candidate, trunc_check_mem_eq d p mem hmem hplt]
  rw [h2]
  have hgen : generate_primes 2 (power_of_10 d - 1) =
      (List.range (power_of_10 d)).filter (fun n => decide (2 ≤ n) && isPrime n) := by
    rw [generate_primes, pow10_succ_sub_one]
  rw [hgen, List.filter_filter]
  have hpt : (fun v => rt_candidate isPrime (power_of_10 (k - 1)) (power_of_10 k - 1) v &&
      (decide (2 ≤ v) && isPrime v)) =
      (fun v => in_window (power_of_10 (k - 1)) (power_of_10 k - 1) v &&
        trunc_check isPrime v) := by
    funext v
    rw [rt_candidate]
    cases hw : in_window (power_of_10 (k - 1)) (power_of_10 k - 1) v
    · rfl
    · cases htr : trunc_check isPrime v
      · simp
      · have hv0 : v ≠ 0 := by
          rw [in_window, Bool.and_eq_true, decide_eq_true_iff] at hw
          have := pow10_pos (k - 1)
          omega
        have hip : isPrime v = true := by
          rw [trunc_check_pos _ _ hv0, Bool.and_eq_true] at htr
          exact htr.1
        rw [hip, decide_eq_true (isPrime_two_le v hip)]
        rfl
  rw [hpt]
  have hsplit : (List.range (power_of_10 d)).filter
      (fun v => in_window (power_of_10 (k - 1)) (power_of_10 k - 1) v &&
        trunc_check isPrime v) =
      (List.range (power_of_10 k)).filter
      (fun v => in_window (power_of_10 (k - 1)) (power_of_10 k - 1) v &&
        trunc_check isPrime v) := by
    rcases Nat.le.dest (pow10_mono k d hkd) with ⟨m, hm⟩
    rw [← hm, List.range_add, List.filter_append]
    have hnil : ((List.range m).map (power_of_10 k + ·)).filter
        (fun v => in_window (power_of_10 (k - 1)) (power_of_10 k - 1) v &&
          trunc_check isPrime v) = [] := by
      rw [List.filter_eq_nil_iff]
      intro a ha
      rcases List.mem_map.mp ha with ⟨j, _, rfl⟩
      intro hcon
      rw [Bool.and_eq_true, in_window, Bool.and_eq_true, decide_eq_true_iff,
        decide_eq_true_iff] at hcon
      have := pow10_pos k
      omega
    rw [hnil, List.append_nil]
  rw [hsplit, rt_window]
  apply List.filter_congr
  intro v hv
  have hvk : v < power_of_10 k := List.mem_range.mp hv
  have hle : v ≤ power_of_10 k - 1 := by omega
  rw [in_window, decide_eq_true hle, Bool.and_true]

theorem tsize_pos (l : List Nat) : 0 < (if l.length = 0 then 17 else l.length * 2) := by
  by_cases h : l.length = 0
  · rw [if_pos h]; omega
  · rw [if_neg h]; omega

theorem count_c_eq_rt (d : Nat) (h1 : 1 ≤ d) (h19 : d ≤ 19) :
    count_right_trunc_primes_c d = Int.ofNat (rt_count d) := by
  simp only [count_right_trunc_primes_c]
  rw [if_neg (by omega)]
  congr 1
  rw [c_scan_eq, Nat.zero_add]
  have hmem : ∀ w, hash_table_contains
      (build_table (if (generate_primes 2 (power_of_10 d - 1)).length = 0 then 17
        else (generate_primes 2 (power_of_10 d - 1)).length * 2)
        (generate_primes 2 (power_of_10 d - 1))) w =
      decide (w ∈ generate_primes 2 (power_of_10 d - 1)) := by
    intro w
    exact contains_build _ _ w (tsize_pos _)
  rw [window_trunc_filter d d h1 le_rfl _ hmem]
  rfl

theorem count_opt_eq_rt (d k : Nat) (h1 : 1 ≤ k) (hkd : k ≤ d) (hk19 : k ≤ 19) :
    count_right_trunc_primes_opt (generate_primes 2 (power_of_10 d - 1))
      (build_bitset (power_of_10 d - 1 + 1) (generate_primes 2 (power_of_10 d - 1))) k =
    (Int.ofNat (rt_count k), primes_with_digits k d) := by
  simp only [count_right_trunc_primes_opt]
  rw [if_neg (by omega)]
  have hmem : ∀ w, bitset_contains
      (build_bitset (power_of_10 d - 1 + 1) (generate_primes 2 (power_of_10 d - 1))) w =
      decide (w ∈ generate_primes 2 (power_of_10 d - 1)) := by
    intro w
    apply bitset_contains_build
    intro p hp
    exact ((mem_generate_primes _ _ p).mp hp).1
  rw [opt_scan_eq _ _ _ _ (pairwise_generate_primes _ _) 0 0]
  rw [window_trunc_filter k d h1 hkd _ hmem]
  simp [rt_count, primes_with_digits]

theorem opt_loop_ok (d : Nat) (hd19 : d ≤ 19) :
    ∀ j, j ≤ d →
      opt_loop (generate_primes 2 (power_of_10 d - 1))
        (build_bitset (power_of_10 d - 1 + 1) (generate_primes 2 (power_of_10 d - 1))) j =
      some ((descRange j).map (fun k => (k, Int.ofNat (rt_count k), primes_with_digits k d)),
        Int.ofNat (total_rt j)) := by
  intro j
  induction j with
  | zero => intro _; rfl
  | succ j ih =>
    intro hj
    rw [opt_loop, count_opt_eq_rt d (j + 1) (by omega) hj (by omega)]
    rw [if_neg (by simp)]
    rw [ih (by omega)]
    simp only [descRange, List.map_cons, total_rt]
    congr 1

theorem c_main_total_eq (d : Nat) (hd : d ≤ 19) :
    c_main_total d = Int.ofNat (total_rt d) := by
  induction d with
  | zero => rfl
  | succ d ih =>
    have hsum : c_main_total (d + 1) =
        c_main_total d + count_right_trunc_primes_c (d + 1) := by
      rw [c_main_total, c_main_total, List.range_succ, List.map_append, List.sum_append]
      simp
    rw [hsum, ih (by omega), count_c_eq_rt (d + 1) (by omega) hd, total_rt,
      Int.add_comm]
    rfl

theorem count_digits_loop_zero : count_digits_loop 0 = 0 := by
  simp [count_digits_loop]

theorem count_digits_loop_pos (v : Nat) (h : v ≠ 0) :
    count_digits_loop v = count_digits_loop (v / 10) + 1 := by
  rw [count_digits_loop]
  simp [h]

theorem count_digits_loop_spec (v : Nat) (hv : 1 ≤ v) :
    1 ≤ count_digits_loop v ∧
      10 ^ (count_digits_loop v - 1) ≤ v ∧ v < 10 ^ count_digits_loop v := by
  induction v using Nat.strong_induction_on with
  | _ v ih =>
    by_cases hsmall : v < 10
    · have h10 : v / 10 = 0 := Nat.div_eq_of_lt hsmall
      rw [count_digits_loop_pos v (by omega), h10, count_digits_loop_zero]
      refine ⟨by omega, by simpa using hv, by simpa using hsmall⟩
    · have hdiv1 : 1 ≤ v / 10 := (Nat.one_le_div_iff (by decide)).mpr (by omega)
      have hlt : v / 10 < v := Nat.div_lt_self (by omega) (by decide)
      obtain ⟨hc1, hlow, hhigh⟩ := ih (v / 10) hlt hdiv1
      rw [count_digits_loop_pos v (by omega)]
      set c := count_digits_loop (v / 10) with hc
      refine ⟨by omega, ?_, ?_⟩
      · have h1 : 10 ^ (c - 1) * 10 ≤ v :=
          (Nat.le_div_iff_mul_le (by decide)).mp hlow
        have h2 : 10 ^ (c - 1) * 10 = 10 ^ c := by
          conv_rhs => rw [show c = (c - 1) + 1 by omega]
          rw [pow_succ]
        simpa [h2] using h1
      · have h1 : v < 10 ^ c * 10 := (Nat.div_lt_iff_lt_mul (by decide)).mp hhigh
        rw [pow_succ]
        simpa using h1

theorem count_digits_eq_iff (v k : Nat) (hv : 1 ≤ v) (hk : 1 ≤ k) :
    count_digits v = k ↔ (10 ^ (k - 1) ≤ v ∧ v < 10 ^ k) := by
  rw [count_digits, if_neg (by omega)]
  obtain ⟨hc1, hlow, hhigh⟩ := count_digits_loop_spec v hv
  constructor
  · intro h
    rw [← h]
    exact ⟨hlow, hhigh⟩
  · intro ⟨h1, h2⟩
    set c := count_digits_loop v with hc
    by_contra hne
    rcases Nat.lt_or_ge c k with hlt | hge
    · have : 10 ^ c ≤ 10 ^ (k - 1) := Nat.pow_le_pow_right (by decide) (by omega)
      omega
    · have hgt : k < c := by omega
      have : 10 ^ k ≤ 10 ^ (c - 1) := Nat.pow_le_pow_right (by decide) (by omega)
      omega

theorem truncations_length_le (n : Nat) :
    ∀ v, v < 10 ^ n → (truncations v).length ≤ n := by
  induction n with
  | zero =>
    intro v hv
    have : v = 0 := by omega
    subst this
    rw [truncations_zero]
    exact le_rfl
  | succ n ih =>
    intro v hv
    by_cases hv0 : v = 0
    · subst hv0
      rw [truncations_zero]
      simp
    · rw [truncations_pos v hv0, List.length_cons]
      have hdiv : v / 10 < 10 ^ n := by
        rw [Nat.div_lt_iff_lt_mul (by decide)]
        rw [pow_succ] at hv
        exact hv
      exact Nat.succ_le_succ (ih (v / 10) hdiv)

theorem rtList_one : rtList 1 = [2, 3, 5, 7] := by decide

theorem rtList_two : rtList 2 = [23, 29, 31, 37, 53, 59, 71, 73, 79] := by
  have h : rtList 2 = nextRT (rtList 1) := rfl
  rw [h, rtList_one]
  decide

theorem rtList_three : rtList 3 =
    [233, 239, 293, 311, 313, 317, 373, 379, 593, 599, 719, 733, 739, 797] := by
  have h : rtList 3 = nextRT (rtList 2) := rfl
  rw [h, rtList_two]
  decide

theorem rtList_four : rtList 4 =
    [2333, 2339, 2393, 2399, 2939, 3119, 3137, 3733, 3739, 3793, 3797, 5939,
      7193, 7331, 7333, 7393] := by
  have h : rtList 4 = nextRT (rtList 3) := rfl
  rw [h, rtList_three]
  decide

set_option maxHeartbeats 1000000 in
theorem rtList_five : rtList 5 =
    [23333, 23339, 23399, 23993, 29399, 31193, 31379, 37337, 37339, 37397,
      59393, 59399, 71933, 73331, 73939] := by
  have h : rtList 5 = nextRT (rtList 4) := rfl
  rw [h, rtList_four]
  decide

set_option maxHeartbeats 2000000 in
theorem rtList_six : rtList 6 =
    [233993, 239933, 293999, 373379, 373393, 593933, 593993, 719333, 739391,
      739393, 739397, 739399] := by
  have h : rtList 6 = nextRT (rtList 5) := rfl
  rw [h, rtList_five]
  decide

set_option maxHeartbeats 4000000 in
theorem rtList_seven : rtList 7 =
    [2339933, 2399333, 2939999, 3733799, 5939333, 7393913, 7393931, 7393933] := by
  have h : rtList 7 = nextRT (rtList 6) := rfl
  rw [h, rtList_six]
  decide

set_option maxHeartbeats 8000000 in
theorem rtList_eight : rtList 8 =
    [23399339, 29399999, 37337999, 59393339, 73939133] := by
  have h : rtList 8 = nextRT (rtList 7) := rfl
  rw [h, rtList_seven]
  decide

theorem rt_count_one : rt_count 1 = 4 := by rw [rt_count, rtList_one]; rfl

theorem rt_count_two : rt_count 2 = 9 := by rw [rt_count, rtList_two]; rfl

theorem rt_count_three : rt_count 3 = 14 := by rw [rt_count, rtList_three]; rfl

theorem rt_count_four : rt_count 4 = 16 := by rw [rt_count, rtList_four]; rfl

theorem rt_count_five : rt_count 5 = 15 := by rw [rt_count, rtList_five]; rfl

theorem rt_count_six : rt_count 6 = 12 := by rw [rt_count, rtList_six]; rfl

theorem rt_count_seven : rt_count 7 = 8 := by rw [rt_count, rtList_seven]; rfl

theorem rt_count_eight : rt_count 8 = 5 := by rw [rt_count, rtList_eight]; rfl

theorem total_rt_one : total_rt 1 = 4 := by
  simp [total_rt, rt_count_one]

theorem total_rt_three : total_rt 3 = 27 := by
  simp [total_rt, rt_count_one, rt_count_two, rt_count_three]

theorem total_rt_eight : total_rt 8 = 83 := by
  simp [total_rt, rt_count_one, rt_count_two, rt_count_three, rt_count_four,
    rt_count_five, rt_count_six, rt_count_seven, rt_count_eight]

theorem mem_descRange (d k : Nat) : k ∈ descRange d ↔ 1 ≤ k ∧ k ≤ d := by
  induction d with
  | zero =>
    simp only [descRange, List.not_mem_nil, false_iff]
    omega
  | succ d ih =>
    rw [descRange, List.mem_cons, ih]
    omega

theorem opt_counts_eq (d : Nat) (h19 : d ≤ 19) :
    opt_counts d = some ((descRange d).map (fun k => (k, Int.ofNat (rt_count k)))) ∧
    opt_total d = some (Int.ofNat (total_rt d)) := by
  rw [opt_counts, opt_total, opt_main_result]
  rw [opt_loop_ok d h19 d le_rfl]
  constructor
  · simp [List.map_map]
  · rfl

/-- C1: for every candidate in the digit window, the truncation check
accepts exactly when the membership index reports true for the value and
all of its successive `/ 10` truncations (short-circuiting on the first
failure), and the scan counter counts exactly the window candidates that
pass. -/
theorem spec_c1 (mem : Nat → Bool) (v lo hi : Nat) (l : List Nat) :
    (trunc_check mem v = true ↔ ∀ w ∈ truncations v, mem w = true) ∧
    c_scan mem lo hi l 0 = (l.filter (rt_candidate mem lo hi)).length := by
  constructor
  · rw [trunc_check_eq_all, List.all_eq_true]
  · rw [c_scan_eq, Nat.zero_add]

theorem spec_c1_witness :
    (trunc_check isPrime 23 = true ↔ ∀ w ∈ truncations 23, isPrime w = true) ∧
    c_scan isPrime 10 99 [11, 23, 29] 0 =
      ([11, 23, 29].filter (rt_candidate isPrime 10 99)).length :=
  spec_c1 isPrime 23 10 99 [11, 23, 29]

/-- C2: the index built from the generated prime sequence contains every
member of the sequence, no integer of the generated range outside the
sequence, and holds no duplicate entry. -/
theorem spec_c2 (D : Nat) :
    (∀ v ∈ generate_primes 2 (power_of_10 D - 1),
      hash_table_contains
        (build_table
          (if (generate_primes 2 (power_of_10 D - 1)).length = 0 then 17
            else (generate_primes 2 (power_of_10 D - 1)).length * 2)
          (generate_primes 2 (power_of_10 D - 1))) v = true) ∧
    (∀ w, 2 ≤ w → w ≤ power_of_10 D - 1 →
      w ∉ generate_primes 2 (power_of_10 D - 1) →
      hash_table_contains
        (build_table
          (if (generate_primes 2 (power_of_10 D - 1)).length = 0 then 17
            else (generate_primes 2 (power_of_10 D - 1)).length * 2)
          (generate_primes 2 (power_of_10 D - 1))) w = false) ∧
    (build_table
      (if (generate_primes 2 (power_of_10 D - 1)).length = 0 then 17
        else (generate_primes 2 (power_of_10 D - 1)).length * 2)
      (generate_primes 2 (power_of_10 D - 1))).buckets.flatten.Nodup := by
  have hc : ∀ x, hash_table_contains
      (build_table
        (if (generate_primes 2 (power_of_10 D - 1)).length = 0 then 17
          else (generate_primes 2 (power_of_10 D - 1)).length * 2)
        (generate_primes 2 (power_of_10 D - 1))) x =
      decide (x ∈ generate_primes 2 (power_of_10 D - 1)) :=
    fun x => contains_build _ _ x (tsize_pos _)
  refine ⟨fun v hv => ?_, fun w _ _ hw => ?_, ?_⟩
  · rw [hc v]
    exact decide_eq_true hv
  · rw [hc w]
    exact decide_eq_false hw
  · exact flatten_nodup_of_wf _ (table_wf_build _ _ (tsize_pos _))

theorem spec_c2_witness :
    hash_table_contains
      (build_table
        (if (generate_primes 2 (power_of_10 1 - 1)).length = 0 then 17
          else (generate_primes 2 (power_of_10 1 - 1)).length * 2)
        (generate_primes 2 (power_of_10 1 - 1))) 5 = true ∧
    hash_table_contains
      (build_table
        (if (generate_primes 2 (power_of_10 1 - 1)).length = 0 then 17
          else (generate_primes 2 (power_of_10 1 - 1)).length * 2)
        (generate_primes 2 (power_of_10 1 - 1))) 6 = false :=
  ⟨(spec_c2 1).1 5 (by decide), (spec_c2 1).2.1 6 (by decide) (by decide) (by decide)⟩

/-- C3: end-to-end per-length counts and totals of the optimized pipeline:
D=1 gives count 4 for length 1 and total 4; D=3 gives counts 4, 9, 14 and
total 27; D=8 gives counts 4, 9, 14, 16, 15, 12, 8, 5 and total 83. -/
theorem spec_c3 :
    (opt_counts 1 = some [(1, 4)] ∧ opt_total 1 = some 4) ∧
    (opt_counts 3 = some [(3, 14), (2, 9), (1, 4)] ∧ opt_total 3 = some 27) ∧
    (opt_counts 8 = some [(8, 5), (7, 8), (6, 12), (5, 15), (4, 16), (3, 14),
      (2, 9), (1, 4)] ∧ opt_total 8 = some 83) := by
  obtain ⟨hc1, ht1⟩ := opt_counts_eq 1 (by omega)
  obtain ⟨hc3, ht3⟩ := opt_counts_eq 3 (by omega)
  obtain ⟨hc8, ht8⟩ := opt_counts_eq 8 (by omega)
  refine ⟨⟨?_, ?_⟩, ⟨?_, ?_⟩, ⟨?_, ?_⟩⟩
  · rw [hc1]
    simp [descRange, rt_count_one]
  · rw [ht1, total_rt_one]
    rfl
  · rw [hc3]
    simp [descRange, rt_count_one, rt_count_two, rt_count_three]
  · rw [ht3, total_rt_three]
    rfl
  · rw [hc8]
    simp [descRange, rt_count_one, rt_count_two, rt_count_three, rt_count_four,
      rt_count_five, rt_count_six, rt_count_seven, rt_count_eight]
  · rw [ht8, total_rt_eight]
    rfl

/-- C4: the chained-hash-set variant and the dense-bitset variant are
interchangeable: for every digit bound `d ≤ 19` and every length
`k ≤ d`, the two variants report the same per-length count, and the C
driver's ascending total equals the optimized driver's total. -/
theorem spec_c4 (d k : Nat) (h1 : 1 ≤ k) (hkd : k ≤ d) (hd19 : d ≤ 19) :
    count_right_trunc_primes_c k =
      (count_right_trunc_primes_opt (generate_primes 2 (power_of_10 d - 1))
        (build_bitset (power_of_10 d - 1 + 1)
          (generate_primes 2 (power_of_10 d - 1))) k).1 ∧
    opt_total d = some (c_main_total d) := by
  constructor
  · rw [count_c_eq_rt k h1 (by omega),
      count_opt_eq_rt d k h1 hkd (by omega)]
  · rw [c_main_total_eq d hd19, (opt_counts_eq d hd19).2]

theorem spec_c4_witness :
    1 ≤ 2 ∧ 2 ≤ 3 ∧ 3 ≤ 19 ∧
    (count_right_trunc_primes_c 2 =
      (count_right_trunc_primes_opt (generate_primes 2 (power_of_10 3 - 1))
        (build_bitset (power_of_10 3 - 1 + 1)
          (generate_primes 2 (power_of_10 3 - 1))) 2).1 ∧
    opt_total 3 = some (c_main_total 3)) :=
  ⟨by decide, by decide, by decide, spec_c4 3 2 (by decide) (by decide) (by decide)⟩

/-- C5: hash-set insertion is idempotent: inserting a value already
present leaves the table unchanged (hence every membership answer and the
entry count), and reports success. -/
theorem spec_c5 (ht : hash_table) (v : Nat)
    (h : hash_table_contains ht v = true) :
    (hash_table_add ht v).1 = ht ∧
    (∀ w, hash_table_contains (hash_table_add ht v).1 w = hash_table_contains ht w) ∧
    (hash_table_add ht v).1.count = ht.count ∧
    (hash_table_add ht v).2 = true := by
  have hmem : v ∈ ht.buckets.getD (hash_ull v ht.size) [] := by
    rw [hash_table_contains, decide_eq_true_iff] at h
    exact h
  rw [add_eq_of_mem ht v hmem]
  exact ⟨rfl, fun w => rfl, rfl, rfl⟩

theorem spec_c5_witness :
    hash_table_contains (hash_table_add (hash_table_create 17) 5).1 5 = true ∧
    (hash_table_add (hash_table_add (hash_table_create 17) 5).1 5).1 =
      (hash_table_add (hash_table_create 17) 5).1 ∧
    (hash_table_add (hash_table_add (hash_table_create 17) 5).1 5).2 = true :=
  ⟨by decide,
    (spec_c5 (hash_table_add (hash_table_create 17) 5).1 5 (by decide)).1,
    (spec_c5 (hash_table_add (hash_table_create 17) 5).1 5 (by decide)).2.2.2⟩

/-- C6: dense bit-table membership is a bounds-checked read: any value at
or beyond the table length is reported as not a member, so the
out-of-range branch can never yield a false positive. -/
theorem spec_c6 (bs : List Bool) (v : Nat) (h : bs.length ≤ v) :
    bitset_contains bs v = false := by
  rw [bitset_contains, decide_eq_false (by omega : ¬ v < bs.length)]
  rfl

theorem spec_c6_witness :
    ([true, true] : List Bool).length ≤ 5 ∧
      bitset_contains [true, true] 5 = false :=
  ⟨by decide, spec_c6 [true, true] 5 (by decide)⟩

/-- C7: digit-window boundaries are exact: over the generated prime
sequence, the window test for length `k` selects exactly the primes whose
digit count is `k`; for `k = 2` the window is exactly the primes `v` with
`10 ≤ v ≤ 99`. -/
theorem spec_c7 (D k : Nat) (hk : 1 ≤ k) :
    (generate_primes 2 (power_of_10 D - 1)).filter
        (fun p => in_window (power_of_10 (k - 1)) (power_of_10 k - 1) p) =
      (generate_primes 2 (power_of_10 D - 1)).filter
        (fun p => decide (count_digits p = k)) ∧
    (generate_primes 2 (power_of_10 D - 1)).filter
        (fun p => in_window (power_of_10 1) (power_of_10 2 - 1) p) =
      (generate_primes 2 (power_of_10 D - 1)).filter
        (fun p => decide (10 ≤ p ∧ p ≤ 99)) := by
  constructor
  · apply List.filter_congr
    intro p hp
    have hp2 : 2 ≤ p := isPrime_two_le p ((mem_generate_primes _ _ p).mp hp).2.2
    rw [Bool.eq_iff_iff, in_window, Bool.and_eq_true, decide_eq_true_iff,
      decide_eq_true_iff, decide_eq_true_iff,
      count_digits_eq_iff p k (by omega) hk, pow10_eq, pow10_eq]
    have hpos := pow10_pos k
    rw [pow10_eq] at hpos
    omega
  · apply List.filter_congr
    intro p _
    rw [Bool.eq_iff_iff, in_window, Bool.and_eq_true, decide_eq_true_iff,
      decide_eq_true_iff, decide_eq_true_iff]
    have h10 : power_of_10 1 = 10 := rfl
    have h99 : power_of_10 2 - 1 = 99 := rfl
    omega

theorem spec_c7_witness :
    1 ≤ 2 ∧
    ((generate_primes 2 (power_of_10 3 - 1)).filter
        (fun p => in_window (power_of_10 (2 - 1)) (power_of_10 2 - 1) p) =
      (generate_primes 2 (power_of_10 3 - 1)).filter
        (fun p => decide (count_digits p = 2)) ∧
    (generate_primes 2 (power_of_10 3 - 1)).filter
        (fun p => in_window (power_of_10 1) (power_of_10 2 - 1) p) =
      (generate_primes 2 (power_of_10 3 - 1)).filter
        (fun p => decide (10 ≤ p ∧ p ≤ 99))) :=
  ⟨by decide, spec_c7 3 2 (by decide)⟩

/-- C8: every invalid input — wrong positional-argument count, or a digit
bound outside `[1, 19]` — makes the program print to the error stream and
exit non-zero, with nothing printed to standard output (no computation is
attempted). -/
theorem spec_c8 (args : List Int)
    (h : args.length ≠ 1 ∨ ∃ d, args = [d] ∧ (d < 1 ∨ 19 < d)) :
    (run_main args).exitCode = 1 ∧ (run_main args).out = [] ∧
      (run_main args).err ≠ [] := by
  rcases h with hlen | ⟨d, rfl, hd⟩
  · rw [run_main, if_pos hlen]
    exact ⟨rfl, rfl, by simp⟩
  · rw [run_main, if_neg (by simp)]
    rw [show ([d] : List Int).getD 0 0 = d from rfl, if_pos hd]
    exact ⟨rfl, rfl, by simp⟩

theorem spec_c8_witness :
    ((([0] : List Int)).length ≠ 1 ∨
      ∃ d, ([0] : List Int) = [d] ∧ (d < 1 ∨ 19 < d)) ∧
    (run_main [0]).exitCode = 1 ∧ (run_main [0]).out = [] ∧
      (run_main [0]).err ≠ [] :=
  ⟨Or.inr ⟨0, rfl, Or.inl (by decide)⟩,
    spec_c8 [0] (Or.inr ⟨0, rfl, Or.inl (by decide)⟩)⟩

/-- C9: on a valid digit bound the program prints, for every length
`1 .. d` (in descending order), one line in the format
`Number of <k>-digit right-truncatable primes: <count> (n = <primes>)`,
followed by the total line; every length `1 .. d` appears. -/
theorem spec_c9 (d : Nat) (h1 : 1 ≤ d) (h19 : d ≤ 19) :
    (run_main [(d : Int)]).exitCode = 0 ∧
    (run_main [(d : Int)]).out =
      (descRange d).map (fun k => render_line k (Int.ofNat (rt_count k))
        (primes_with_digits k d)) ++
        [render_total d (Int.ofNat (total_rt d))
          (generate_primes 2 (power_of_10 d - 1)).length] ∧
    (∀ k, 1 ≤ k → k ≤ d → k ∈ descRange d) := by
  have hlen : ¬ (([(d : Int)] : List Int).length ≠ 1) := by simp
  have hguard : ¬ (((d : Int)) < 1 ∨ (19 : Int) < (d : Int)) := by
    push_neg
    constructor
    · exact_mod_cast h1
    · exact_mod_cast h19
  simp only [run_main]
  rw [if_neg hlen,
    show ([(d : Int)] : List Int).getD 0 0 = (d : Int) from rfl,
    if_neg hguard,
    show ((d : Int)).toNat = d from Int.toNat_natCast d,
    opt_loop_ok d h19 d le_rfl]
  refine ⟨rfl, ?_, fun k hk1 hk2 => (mem_descRange d k).mpr ⟨hk1, hk2⟩⟩
  simp [List.map_map]

theorem spec_c9_witness :
    1 ≤ 1 ∧ 1 ≤ 19 ∧
    ((run_main [(1 : Int)]).exitCode = 0 ∧
    (run_main [(1 : Int)]).out =
      (descRange 1).map (fun k => render_line k (Int.ofNat (rt_count k))
        (primes_with_digits k 1)) ++
        [render_total 1 (Int.ofNat (total_rt 1))
          (generate_primes 2 (power_of_10 1 - 1)).length] ∧
    (∀ k, 1 ≤ k → k ≤ 1 → k ∈ descRange 1)) :=
  ⟨by decide, by decide, spec_c9 1 (by decide) (by decide)⟩

/-- C10: the truncation loop terminates within 20 division steps for any
64-bit candidate, and the counting function returns an actual
(non-negative) count for every valid digit bound. -/
theorem spec_c10 (v : Nat) (h : v < 2 ^ 64) :
    (truncations v).length ≤ 20 ∧
    (∀ d, 1 ≤ d → d ≤ 19 → 0 ≤ count_right_trunc_primes_c d) := by
  constructor
  · exact truncations_length_le 20 v (lt_of_lt_of_le h (by norm_num))
  · intro d hd1 hd19
    rw [count_c_eq_rt d hd1 hd19]
    exact Int.ofNat_nonneg _

theorem spec_c10_witness :
    2 ^ 64 - 1 < 2 ^ 64 ∧
    (truncations (2 ^ 64 - 1)).length ≤ 20 ∧
    0 ≤ count_right_trunc_primes_c 8 :=
  ⟨by norm_num,
    (spec_c10 (2 ^ 64 - 1) (by norm_num)).1,
    (spec_c10 (2 ^ 64 - 1) (by norm_num)).2 8 (by norm_num) (by norm_num)⟩
